import Mathlib

/-!
# A shallow embedding of the S2BAVG stratified-sampling scripts

This file embeds the stratification, quality-filtering, sample-allocation
and within-stratum sampling stages of the two script variants
(`sampling.py` and `scripts/sampling.py`) as Lean definitions, and proves
properties of those stages.  Dataframes are modelled as lists of records,
pandas `Series` with a string index as association lists, NumPy rounding as
round-half-to-even, and `np.sqrt` as `Real.sqrt`.  The random draw of
`DataFrame.sample` is modelled as a deterministic consumer of an integer
stream: a seeded call uses a stream derived from its `random_state`
argument, an unseeded call consumes the library's ambient generator state,
which we pass in explicitly.
-/

namespace S2BAVG

/-- One spatial unit: a row of the merged `geometries ⋈ data_year` table.
`baPerc` is the `<ba_data>_burned_perc` column, `landPerc` is `land_perc`,
and `revisit` is the nullable `median_days_interval_fireseason_nocloudy`
column (`none` models a missing / NaN entry).  All other columns are
pass-through and irrelevant to the sampling logic. -/
structure Tile where
  name : String
  biome : String
  baPerc : ℚ
  landPerc : ℚ
  revisit : Option ℚ
deriving DecidableEq, Inhabited

/-- A tile enriched with its `stratum` column, as added by
`merged_data['stratum'] = merged_data['biome'] + '_' + merged_data[ba_data+'_fire_activity']`. -/
structure Row extends Tile where
  stratum : String
deriving DecidableEq, Inhabited

/-- `Series.mean()` on a list of values (never applied to an empty group in
the pipeline). -/
def meanQ (l : List ℚ) : ℚ := l.sum / l.length

/-- `Series.quantile(0.8)` with the pandas default linear interpolation:
sort ascending, set `pos = (n-1) * 0.8`, and interpolate linearly between
the order statistics at positions `⌊pos⌋` and `⌊pos⌋ + 1`. -/
def quantile08 (xs : List ℚ) : ℚ :=
  let s := xs.insertionSort (fun a b => a ≤ b)
  let pos : ℚ := ((s.length : ℚ) - 1) * (4 / 5)
  let i : ℕ := ⌊pos⌋.toNat
  let lo := s.getD i 0
  let hi := s.getD (i + 1) lo
  lo + (pos - (i : ℚ)) * (hi - lo)

/-- The per-biome fire-activity threshold, computed on the *merged,
unfiltered* table:
`merged_data.groupby('biome')[ba_data+'_burned_perc'].quantile(0.8)`. -/
def fireThreshold (tiles : List Tile) (b : String) : ℚ :=
  quantile08 ((tiles.filter (fun t => decide (t.biome = b))).map (fun t => t.baPerc))

/-- The classification lambda of the stratification block:
`'high' if row[ba+'_burned_perc'] > row[ba+'_fire_activity_threshold'] else 'low'`,
where the threshold column was merged back from `fireThreshold`. -/
def fireActivity (tiles : List Tile) (t : Tile) : String :=
  if fireThreshold tiles t.biome < t.baPerc then "high" else "low"

/-- The stratification block: every tile of the merged table receives the
`stratum` column `biome + '_' + fire_activity`. -/
def stratifyRows (tiles : List Tile) : List Row :=
  tiles.map (fun t => { toTile := t, stratum := t.biome ++ "_" ++ fireActivity tiles t })

/-- The quality filter (lines 95-97 of `sampling.py`, 123-127 of
`scripts/sampling.py`):
`(land_perc >= land_perc_filter) & (revisit <= nocloudy_interval_filter) & (revisit.notnull())`.
A pandas comparison against a null entry is `False`, so the middle
conjunct is false on a missing revisit interval. -/
def applyFilter (minLand maxRevisit : ℚ) (rows : List Row) : List Row :=
  rows.filter (fun r =>
    decide (minLand ≤ r.landPerc) &&
    (match r.revisit with
     | some d => decide (d ≤ maxRevisit)
     | none => false) &&
    r.revisit.isSome)

/-- The eligible population: the stratified table after the quality
filter. -/
def filteredData (minLand maxRevisit : ℚ) (tiles : List Tile) : List Row :=
  applyFilter minLand maxRevisit (stratifyRows tiles)

/-! ## Series -/

/-- A pandas `Series` with string index labels: an association list.  In
this pipeline the index labels are pairwise distinct. -/
abbrev Series := List (String × ℤ)

/-- `Series.sum()`. -/
def sumS (s : Series) : ℤ := (s.map (fun p => p.2)).sum

/-- `s[h]`: label-based read of the first (in this pipeline: unique)
entry with index label `h`, defaulting to 0 off the index (the scripts
only ever read labels that are present). -/
def getS (s : Series) (h : String) : ℤ :=
  match s with
  | [] => 0
  | p :: rest => if p.1 = h then p.2 else getS rest h

/-- The index labels of a series. -/
def keysS (s : Series) : List String := s.map (fun p => p.1)

/-- The number of rows of `rows` in stratum `h` (one entry of
`filtered_data['stratum'].value_counts()`). -/
def stratumCount (rows : List Row) (h : String) : ℕ :=
  (rows.filter (fun r => decide (r.stratum = h))).length

/-- First-occurrence deduplication with an accumulator of values already
seen. -/
def uniqueAux (seen : List String) : List String → List String
  | [] => []
  | x :: xs => if x ∈ seen then uniqueAux seen xs else x :: uniqueAux (x :: seen) xs

/-- First-occurrence deduplication: the distinct values that
`value_counts` indexes. -/
def uniqueInOrder (l : List String) : List String := uniqueAux [] l

/-- The index of `filtered_data['stratum'].value_counts()`: the distinct
stratum labels, ordered by descending count (a stable, deterministic model
of the library's tie order). -/
def strataList (rows : List Row) : List String :=
  (uniqueInOrder (rows.map (fun r => r.stratum))).insertionSort
    (fun a b => stratumCount rows b ≤ stratumCount rows a)

/-- `filtered_data.groupby('stratum')[ba+'_burned_perc'].transform('mean')`
evaluated at row `r`: the mean BA percentage of `r`'s stratum (the
`BA_mean_stratum` column). -/
def baMeanOfRow (rows : List Row) (r : Row) : ℚ :=
  meanQ ((rows.filter (fun x => decide (x.stratum = r.stratum))).map (fun x => x.baPerc))

/-- `stratum_BA = filtered_data.groupby('stratum')['BA_mean_stratum'].mean()`. -/
def stratumBA (rows : List Row) (h : String) : ℚ :=
  meanQ ((rows.filter (fun r => decide (r.stratum = h))).map (fun r => baMeanOfRow rows r))

/-! ## Allocator -/

/-- NumPy rounding (`Series.round()`): round half to even. -/
def roundHE {α : Type} [LinearOrderedField α] [FloorRing α] (x : α) : ℤ :=
  if x - (⌊x⌋ : α) < 1 / 2 then ⌊x⌋
  else if (1 : α) / 2 < x - (⌊x⌋ : α) then ⌊x⌋ + 1
  else if Even ⌊x⌋ then ⌊x⌋ else ⌊x⌋ + 1

/-- Step 1, the raw per-stratum weight (line 105 of `sampling.py`):
`stratum_sample_sizes = (stratum_sizes * np.sqrt(stratum_BA)).round().astype(int)`.
`np.sqrt` on exact values is modelled by `Real.sqrt`. -/
noncomputable def rawWeights (rows : List Row) : Series :=
  (strataList rows).map (fun h =>
    (h, roundHE ((stratumCount rows h : ℝ) * Real.sqrt ((stratumBA rows h : ℚ) : ℝ))))

/-- Step 2, the rescale to the total budget (line 109):
`(stratum_sample_sizes / total_allocated * total_sample_size).round().astype(int)`.
When `total_allocated = 0` and the series is nonempty, each quotient entry
is non-finite (`0/0 = NaN`, `x/0 = ±inf`) and `astype(int)` raises
`ValueError`; the `.error` branch models that crash. -/
def rescale (raw : Series) (B : ℤ) : Series :=
  raw.map (fun p => (p.1, roundHE ((p.2 : ℚ) / (sumS raw : ℚ) * (B : ℚ))))

/-- Step 2 with the failure mode of `astype(int)` made explicit (see
`rescale` for the arithmetic). -/
def rescaleE (raw : Series) (B : ℤ) : Except String Series :=
  if sumS raw = 0 ∧ raw ≠ [] then
    .error "ValueError: Cannot convert non-finite values (NA or inf) to integer"
  else
    .ok (rescale raw B)

/-- `stratum_sample_sizes[stratum] += 1` at a (unique) index label. -/
def incS (s : Series) (h : String) : Series :=
  s.map (fun p => if p.1 = h then (p.1, p.2 + 1) else p)

/-- `stratum_sample_sizes[stratum] -= 1` at a (unique) index label. -/
def decS (s : Series) (h : String) : Series :=
  s.map (fun p => if p.1 = h then (p.1, p.2 - 1) else p)

/-- `s.nlargest(k).index`: the labels of the `k` largest entries
(descending by value, stable on ties, at most the whole series). -/
def selectLargest (k : ℕ) (s : Series) : List String :=
  ((s.insertionSort (fun a b => b.2 ≤ a.2)).take k).map (fun p => p.1)

/-- The `difference > 0` reconciliation loop (lines 111-114): add one unit
to each chosen stratum. -/
def applyInc (s : Series) (chosen : List String) : Series :=
  chosen.foldl (fun acc h => incS acc h) s

/-- The `difference < 0` reconciliation loop (lines 115-119): subtract one
unit from each chosen stratum, but only when its value exceeds 2. -/
def applyDec (s : Series) (chosen : List String) : Series :=
  chosen.foldl (fun acc h => if 2 < getS acc h then decS acc h else acc) s

/-- Step 3, exact reconciliation (lines 110-119). -/
def reconcile (sh : Series) (B : ℤ) : Series :=
  let difference := B - sumS sh
  if 0 < difference then applyInc sh (selectLargest difference.toNat sh)
  else if difference < 0 then applyDec sh (selectLargest (-difference).toNat sh)
  else sh

/-- Step 4, the minimum floor (lines 120-124): each stratum below 2 is
raised to exactly 2 (`sample_size + (2 - sample_size) = 2`); no entry is
ever lowered here. -/
def floorStep (s : Series) : Series :=
  s.map (fun p => if p.2 < 2 then (p.1, 2) else p)

/-- The whole allocation stage, steps 1-4 chained on the eligible
population. -/
noncomputable def allocate (rows : List Row) (B : ℤ) : Except String Series :=
  (rescaleE (rawWeights rows) B).map (fun sh => floorStep (reconcile sh B))

/-- The allocation series right after the rescale of step 2. -/
noncomputable def allocAfterRescale (rows : List Row) (B : ℤ) : Series :=
  rescale (rawWeights rows) B

/-- The allocation series right after the reconciliation of step 3,
before the minimum floor. -/
noncomputable def allocAfterReconcile (rows : List Row) (B : ℤ) : Series :=
  reconcile (allocAfterRescale rows B) B

/-- The final allocation series, after the minimum floor of step 4. -/
noncomputable def allocFinal (rows : List Row) (B : ℤ) : Series :=
  floorStep (allocAfterReconcile rows B)

/-! ## Sampler -/

/-- Draw `k` rows without replacement, consuming the random stream `g`
from position `step` on: the model of `DataFrame.sample(n=k, replace=False)`
(the library repeatedly picks a random remaining position). -/
def drawAux (g : ℕ → ℕ) : ℕ → ℕ → List Row → List Row
  | _, 0, _ => []
  | _, _ + 1, [] => []
  | step, k + 1, x :: xs =>
      (x :: xs).getD (g step % (x :: xs).length) default ::
        drawAux g (step + 1) k ((x :: xs).eraseIdx (g step % (x :: xs).length))

/-- The pseudo-random stream the library derives from an explicit
`random_state` seed (a deterministic model of the seeded generator). -/
def seedStream (s : ℕ) : ℕ → ℕ :=
  fun i => (1103515245 * s + 12345 * i + 101) % 2147483648

/-- The stream a single `.sample` call consumes: the seeded stream when a
`random_state` is passed, the ambient global-generator state otherwise. -/
def pdStream (rs : Option ℕ) (amb : ℕ → ℕ) : ℕ → ℕ :=
  match rs with
  | some s => seedStream s
  | none => amb

/-- The clamp of lines 131-132: `if sample_size > len(stratum_data):
sample_size = len(stratum_data)`, followed by the conversion of the
(never negative in the pipeline) size to the count handed to `.sample`. -/
def clampSize (size : ℤ) (popLen : ℕ) : ℕ :=
  (if (popLen : ℤ) < size then (popLen : ℤ) else size).toNat

/-- The sampling loop (lines 127-134 of `sampling.py`, 157-163 of
`scripts/sampling.py`): for each allocation entry take the stratum's
eligible rows, clamp the requested size to the population size, draw
without replacement and append.  `rs` is the `random_state` argument of
`.sample` (`some 1` in `sampling.py`, `none` in `scripts/sampling.py`);
`amb j` is the ambient state of the library's global generator at the
`j`-th call, consumed only when `rs = none`. -/
def sampleRuns (rs : Option ℕ) (amb : ℕ → ℕ → ℕ) (filtered : List Row) :
    Series → ℕ → List Row
  | [], _ => []
  | p :: rest, j =>
      drawAux (pdStream rs (amb j)) 0
          (clampSize p.2 (filtered.filter (fun r => decide (r.stratum = p.1))).length)
          (filtered.filter (fun r => decide (r.stratum = p.1))) ++
        sampleRuns rs amb filtered rest (j + 1)

/-- `sampled_data` after the loop. -/
def samplingLoop (rs : Option ℕ) (amb : ℕ → ℕ → ℕ) (filtered : List Row)
    (alloc : Series) : List Row :=
  sampleRuns rs amb filtered alloc 0

/-! ## Year gate -/

/-- Lines 60-61 of `scripts/sampling.py`:
`if int(year) < 2016: raise ValueError("Year must be greater than 2016")`. -/
def yearCheck (year : ℤ) : Except String Unit :=
  if year < 2016 then .error "Year must be greater than 2016" else .ok ()

/-- `main` viewed from its first statement: the year check precedes every
read and every computation, so with an invalid year the rest of the run
(`rest`, covering data loading and all downstream output) is never
reached. -/
def mainGate {α : Type} (year : ℤ) (rest : α) : Except String α :=
  match yearCheck year with
  | .error e => .error e
  | .ok _ => .ok rest

/-! ## Basic lemmas -/

/-- The boolean filter predicate holds exactly when the land percentage is
at least the minimum and the revisit interval is present and at most the
maximum. -/
lemma filterPred_iff (minLand maxRevisit : ℚ) (r : Row) :
    (decide (minLand ≤ r.landPerc) &&
      (match r.revisit with
       | some d => decide (d ≤ maxRevisit)
       | none => false) &&
      r.revisit.isSome) = true ↔
    minLand ≤ r.landPerc ∧ ∃ d, r.revisit = some d ∧ d ≤ maxRevisit := by
  rcases hrev : r.revisit with _ | d <;> simp [hrev]

/-- C7: the quality filter keeps a tile exactly when its land percentage
is at least the minimum, its revisit interval is non-null, and that
interval is at most the maximum; the output is a stable subsequence of the
input (tiles unchanged, order preserved), and an empty result is an
ordinary value, not an error. -/
theorem C7_filter_predicate_and_stability :
    ∀ (minLand maxRevisit : ℚ) (rows : List Row),
      (applyFilter minLand maxRevisit rows).Sublist rows ∧
      ∀ r : Row, r ∈ applyFilter minLand maxRevisit rows ↔
        r ∈ rows ∧ minLand ≤ r.landPerc ∧
          ∃ d, r.revisit = some d ∧ d ≤ maxRevisit := by
  intro minLand maxRevisit rows
  refine ⟨List.filter_sublist rows, fun r => ?_⟩
  rw [applyFilter, List.mem_filter, filterPred_iff]

/-- C8: a year strictly below 2016 makes `main` raise
`ValueError("Year must be greater than 2016")` before any data is read,
while any year from 2016 on passes the check and the run proceeds. -/
theorem C8_year_gate :
    ∀ {α : Type} (year : ℤ) (rest : α),
      (year < 2016 →
        mainGate year rest = Except.error "Year must be greater than 2016") ∧
      (2016 ≤ year → mainGate year rest = Except.ok rest) := by
  intro α year rest
  constructor
  · intro h
    simp [mainGate, yearCheck, h]
  · intro h
    have h2 : ¬ year < 2016 := not_lt.mpr h
    simp [mainGate, yearCheck, h2]

/-- Witness for C8 at the concrete years 2015 (rejected) and 2019
(accepted). -/
theorem C8_year_gate_witness :
    mainGate 2015 ([] : List Row) = Except.error "Year must be greater than 2016" ∧
    mainGate 2019 ([] : List Row) = Except.ok [] :=
  ⟨(C8_year_gate 2015 []).1 (by decide), (C8_year_gate 2019 []).2 (by decide)⟩

/-- C2: the threshold of a tile's biome is the 80th percentile
(`quantile08`) of that biome's BA percentages over the unfiltered merged
table; a tile is labeled `high` exactly when its BA percentage strictly
exceeds that threshold, a tile at the threshold is labeled `low`, and the
stratum labels carried by the quality-filtered rows are the ones computed
from the unfiltered population. -/
theorem C2_threshold_and_labels :
    ∀ (tiles : List Tile) (minLand maxRevisit : ℚ) (t : Tile),
      fireThreshold tiles t.biome =
        quantile08 ((tiles.filter (fun u => decide (u.biome = t.biome))).map
          (fun u => u.baPerc)) ∧
      (fireActivity tiles t = "high" ↔ fireThreshold tiles t.biome < t.baPerc) ∧
      (t.baPerc = fireThreshold tiles t.biome → fireActivity tiles t = "low") ∧
      ∀ r ∈ filteredData minLand maxRevisit tiles,
        r.stratum = r.biome ++ "_" ++ fireActivity tiles r.toTile := by
  intro tiles minLand maxRevisit t
  refine ⟨rfl, ?_, ?_, ?_⟩
  · by_cases hc : fireThreshold tiles t.biome < t.baPerc
    · simp [fireActivity, hc]
    · simp [fireActivity, hc]
  · intro heq
    have hc : ¬ fireThreshold tiles t.biome < t.baPerc := by
      rw [heq]
      exact lt_irrefl _
    simp [fireActivity, hc]
  · intro r hr
    have hr2 : r ∈ stratifyRows tiles := List.mem_of_mem_filter hr
    rw [stratifyRows, List.mem_map] at hr2
    obtain ⟨t0, _, rfl⟩ := hr2
    rfl

/-- A two-tile population (one biome, both tiles with BA percentage 5)
used to witness C2. -/
def w2tiles : List Tile := [⟨"t1", "b", 5, 100, some 1⟩, ⟨"t2", "b", 5, 100, some 1⟩]

/-- The first tile of `w2tiles`. -/
def w2tile : Tile := ⟨"t1", "b", 5, 100, some 1⟩

/-- The stratified row of `w2tile`. -/
def w2row : Row := ⟨w2tile, "b_low"⟩

/-- Witness for C2: the biome of `w2tiles` has BA values `[5, 5]`, hence
threshold 5; `w2tile` sits exactly at the threshold and is labeled `low`,
and the filtered row carries the stratum string built from that label. -/
theorem C2_threshold_and_labels_witness :
    fireActivity w2tiles w2tile = "low" ∧
    w2row.stratum = "b" ++ "_" ++ fireActivity w2tiles w2tile := by
  constructor
  · exact (C2_threshold_and_labels w2tiles 50 10 w2tile).2.2.1 (by
      show (5 : ℚ) = fireThreshold w2tiles "b"
      norm_num [fireThreshold, w2tiles, quantile08, List.insertionSort,
        List.orderedInsert])
  · have h := (C2_threshold_and_labels w2tiles 50 10 w2tile).2.2.2 w2row (by
      norm_num [filteredData, applyFilter, stratifyRows, w2tiles, w2row, w2tile,
        fireActivity, fireThreshold, quantile08, List.insertionSort,
        List.orderedInsert, List.filter]
      exact Or.inl rfl)
    exact h

/-! ## Sampler lemmas -/

lemma drawAux_length (g : ℕ → ℕ) :
    ∀ (k step : ℕ) (l : List Row), (drawAux g step k l).length = min k l.length := by
  intro k
  induction k with
  | zero => intro step l; simp [drawAux]
  | succ n ih =>
    intro step l
    cases l with
    | nil => simp [drawAux]
    | cons x xs =>
      simp only [drawAux, List.length_cons, ih, List.length_eraseIdx]
      have hlt2 : g step % (xs.length + 1) < xs.length + 1 :=
        Nat.mod_lt _ (Nat.succ_pos _)
      rw [if_pos hlt2]
      omega

lemma drawAux_subset (g : ℕ → ℕ) :
    ∀ (k step : ℕ) (l : List Row), ∀ x ∈ drawAux g step k l, x ∈ l := by
  intro k
  induction k with
  | zero => intro step l x hx; simp [drawAux] at hx
  | succ n ih =>
    intro step l x hx
    cases l with
    | nil => simp [drawAux] at hx
    | cons y ys =>
      have hlt : g step % (y :: ys).length < (y :: ys).length :=
        Nat.mod_lt _ (Nat.succ_pos _)
      simp only [drawAux, List.mem_cons] at hx
      rcases hx with hx | hx
      · rw [hx, List.getD_eq_getElem _ _ hlt]
        exact List.getElem_mem _
      · exact (List.eraseIdx_sublist (y :: ys) _).subset (ih _ _ x hx)

lemma getD_not_mem_eraseIdx :
    ∀ (l : List Row) (i : ℕ), l.Nodup → i < l.length →
      l.getD i default ∉ l.eraseIdx i := by
  intro l
  induction l with
  | nil => intro i _ h; simp at h
  | cons x xs ih =>
    intro i hnd hlt
    cases i with
    | zero =>
      simp only [List.getD_cons_zero, List.eraseIdx_cons_zero]
      exact (List.nodup_cons.mp hnd).1
    | succ n =>
      simp only [List.getD_cons_succ, List.eraseIdx_cons_succ]
      intro hmem
      rcases List.mem_cons.mp hmem with heq | hmem2
      · have hin : xs.getD n default ∈ xs := by
          rw [List.getD_eq_getElem _ _ (by simpa using hlt)]
          exact List.getElem_mem _
        rw [heq] at hin
        exact (List.nodup_cons.mp hnd).1 hin
      · exact ih n (List.nodup_cons.mp hnd).2 (by simpa using hlt) hmem2

lemma drawAux_nodup (g : ℕ → ℕ) :
    ∀ (k step : ℕ) (l : List Row), l.Nodup → (drawAux g step k l).Nodup := by
  intro k
  induction k with
  | zero => intro step l _; simp [drawAux]
  | succ n ih =>
    intro step l hnd
    cases l with
    | nil => simp [drawAux]
    | cons y ys =>
      have hlt : g step % (y :: ys).length < (y :: ys).length :=
        Nat.mod_lt _ (Nat.succ_pos _)
      simp only [drawAux, List.nodup_cons]
      constructor
      · intro hmem
        exact getD_not_mem_eraseIdx (y :: ys) _ hnd hlt
          (drawAux_subset g n _ _ _ hmem)
      · exact ih _ _ ((List.eraseIdx_sublist (y :: ys) _).nodup hnd)

lemma sampleRuns_subset (rs : Option ℕ) (amb : ℕ → ℕ → ℕ) (filtered : List Row) :
    ∀ (alloc : Series) (j : ℕ), ∀ x ∈ sampleRuns rs amb filtered alloc j, x ∈ filtered := by
  intro alloc
  induction alloc with
  | nil => intro j x hx; simp [sampleRuns] at hx
  | cons p rest ih =>
    intro j x hx
    rw [sampleRuns, List.mem_append] at hx
    rcases hx with hx | hx
    · exact List.mem_of_mem_filter (drawAux_subset _ _ _ _ x hx)
    · exact ih _ x hx

lemma sampleRuns_stratum (rs : Option ℕ) (amb : ℕ → ℕ → ℕ) (filtered : List Row) :
    ∀ (alloc : Series) (j : ℕ), ∀ x ∈ sampleRuns rs amb filtered alloc j,
      x.stratum ∈ alloc.map (fun p => p.1) := by
  intro alloc
  induction alloc with
  | nil => intro j x hx; simp [sampleRuns] at hx
  | cons p rest ih =>
    intro j x hx
    rw [sampleRuns, List.mem_append] at hx
    rcases hx with hx | hx
    · have hx2 := drawAux_subset _ _ _ _ x hx
      have := (List.mem_filter.mp hx2).2
      simp only [decide_eq_true_eq] at this
      simp [this]
    · simp only [List.map_cons, List.mem_cons]
      exact Or.inr (ih _ x hx)

lemma sampleRuns_nodup (rs : Option ℕ) (amb : ℕ → ℕ → ℕ) (filtered : List Row)
    (hf : filtered.Nodup) :
    ∀ (alloc : Series), (alloc.map (fun p => p.1)).Nodup →
      ∀ j, (sampleRuns rs amb filtered alloc j).Nodup := by
  intro alloc
  induction alloc with
  | nil => intro _ j; simp [sampleRuns]
  | cons p rest ih =>
    intro hks j
    simp only [List.map_cons, List.nodup_cons] at hks
    rw [sampleRuns, List.nodup_append]
    refine ⟨drawAux_nodup _ _ _ _ ((List.filter_sublist filtered).nodup hf),
      ih hks.2 _, ?_⟩
    intro x hx hx2
    have h1 : x.stratum = p.1 := by
      have := (List.mem_filter.mp (drawAux_subset _ _ _ _ x hx)).2
      simpa using this
    have h2 : x.stratum ∈ rest.map (fun q => q.1) :=
      sampleRuns_stratum rs amb filtered rest _ x hx2
    rw [h1] at h2
    exact hks.1 h2

lemma clampSize_eq (size : ℤ) (n : ℕ) (h : 0 ≤ size) :
    clampSize size n = min size.toNat n := by
  rw [clampSize]
  split <;> omega

lemma sampleRuns_count (rs : Option ℕ) (amb : ℕ → ℕ → ℕ) (filtered : List Row) :
    ∀ (alloc : Series) (p : String × ℤ), (alloc.map (fun q => q.1)).Nodup →
      p ∈ alloc → 0 ≤ p.2 → ∀ j,
      ((sampleRuns rs amb filtered alloc j).filter
          (fun r => decide (r.stratum = p.1))).length =
        min p.2.toNat (filtered.filter (fun r => decide (r.stratum = p.1))).length := by
  intro alloc
  induction alloc with
  | nil => intro p _ hp; simp at hp
  | cons q rest ih =>
    intro p hks hp hpos j
    simp only [List.map_cons, List.nodup_cons] at hks
    rw [sampleRuns, List.filter_append, List.length_append]
    rcases List.mem_cons.mp hp with rfl | hp2
    · have hseg : (drawAux (pdStream rs (amb j)) 0
          (clampSize p.2 (filtered.filter (fun r => decide (r.stratum = p.1))).length)
          (filtered.filter (fun r => decide (r.stratum = p.1)))).filter
            (fun r => decide (r.stratum = p.1)) =
          drawAux (pdStream rs (amb j)) 0
            (clampSize p.2 (filtered.filter (fun r => decide (r.stratum = p.1))).length)
            (filtered.filter (fun r => decide (r.stratum = p.1))) := by
        rw [List.filter_eq_self]
        intro a ha
        exact (List.mem_filter.mp (drawAux_subset _ _ _ _ a ha)).2
      have hrest : (sampleRuns rs amb filtered rest (j + 1)).filter
          (fun r => decide (r.stratum = p.1)) = [] := by
        rw [List.filter_eq_nil_iff]
        intro a ha
        have h2 := sampleRuns_stratum rs amb filtered rest _ a ha
        simp only [decide_eq_true_eq]
        intro heq
        rw [heq] at h2
        exact hks.1 h2
      rw [hseg, hrest, drawAux_length,
        clampSize_eq _ _ hpos]
      simp only [List.length_nil, Nat.add_zero]
      omega
    · have hq : q.1 ≠ p.1 := by
        intro heq
        apply hks.1
        rw [heq]
        exact List.mem_map.mpr ⟨p, hp2, rfl⟩
      have hseg : (drawAux (pdStream rs (amb j)) 0
          (clampSize q.2 (filtered.filter (fun r => decide (r.stratum = q.1))).length)
          (filtered.filter (fun r => decide (r.stratum = q.1)))).filter
            (fun r => decide (r.stratum = p.1)) = [] := by
        rw [List.filter_eq_nil_iff]
        intro a ha
        have h2 := (List.mem_filter.mp (drawAux_subset _ _ _ _ a ha)).2
        simp only [decide_eq_true_eq] at h2
        simp only [decide_eq_true_eq]
        rw [h2]
        exact hq
      rw [hseg]
      simp only [List.length_nil, Nat.zero_add]
      exact ih p hks.2 hp2 hpos _

lemma sampleRuns_seeded_amb_irrelevant (s : ℕ) (amb amb' : ℕ → ℕ → ℕ)
    (filtered : List Row) :
    ∀ (alloc : Series) (j j' : ℕ),
      sampleRuns (some s) amb filtered alloc j =
        sampleRuns (some s) amb' filtered alloc j' := by
  intro alloc
  induction alloc with
  | nil => intro j j'; rfl
  | cons p rest ih =>
    intro j j'
    rw [sampleRuns, sampleRuns]
    have hstream : pdStream (some s) (amb j) = pdStream (some s) (amb' j') := rfl
    rw [hstream, ih]

/-! ## Sampler claims -/

/-- C4: the number of tiles the sampler draws from a stratum equals the
minimum of that stratum's allocation and its eligible population; in
particular an allocation above the population is clamped rather than an
error, and an allocation of 0 contributes no tiles. -/
theorem C4_sampler_clamp :
    ∀ (rs : Option ℕ) (amb : ℕ → ℕ → ℕ) (filtered : List Row) (alloc : Series)
      (p : String × ℤ), (alloc.map (fun q => q.1)).Nodup → p ∈ alloc → 0 ≤ p.2 →
      ((samplingLoop rs amb filtered alloc).filter
          (fun r => decide (r.stratum = p.1))).length =
        min p.2.toNat (filtered.filter (fun r => decide (r.stratum = p.1))).length := by
  intro rs amb filtered alloc p hks hp hpos
  exact sampleRuns_count rs amb filtered alloc p hks hp hpos 0

/-- A one-stratum population of two rows used to witness the sampler
claims. -/
def wRowA : Row := ⟨⟨"a", "b", 0, 100, some 1⟩, "b_low"⟩

/-- Second row of the witness population. -/
def wRowB : Row := ⟨⟨"b", "b", 0, 100, some 1⟩, "b_low"⟩

/-- Witness for C4 at a concrete population: the allocation 5 on a
two-row stratum realizes exactly 2 sampled rows, and the allocation 0 on
the same population realizes 0. -/
theorem C4_sampler_clamp_witness :
    ((samplingLoop (some 1) (fun _ _ => 0) [wRowA, wRowB] [("b_low", 5)]).filter
        (fun r => decide (r.stratum = "b_low"))).length = 2 ∧
    ((samplingLoop (some 1) (fun _ _ => 0) [wRowA, wRowB] [("b_low", 0)]).filter
        (fun r => decide (r.stratum = "b_low"))).length = 0 := by
  constructor
  · have h := C4_sampler_clamp (some 1) (fun _ _ => 0) [wRowA, wRowB]
      [("b_low", 5)] ("b_low", 5) (by decide) (by decide) (by decide)
    simpa [wRowA, wRowB] using h
  · have h := C4_sampler_clamp (some 1) (fun _ _ => 0) [wRowA, wRowB]
      [("b_low", 0)] ("b_low", 0) (by decide) (by decide) (by decide)
    simpa [wRowA, wRowB] using h

/-- C9: the selected sample is always a subset of the filtered eligible
population, and when the eligible rows are pairwise distinct and the
allocation's strata are distinct, no row is selected more than once:
within a stratum the draw is without replacement, and distinct strata
contribute disjoint rows. -/
theorem C9_sample_subset_nodup :
    ∀ (rs : Option ℕ) (amb : ℕ → ℕ → ℕ) (filtered : List Row) (alloc : Series),
      (∀ x ∈ samplingLoop rs amb filtered alloc, x ∈ filtered) ∧
      (filtered.Nodup → (alloc.map (fun q => q.1)).Nodup →
        (samplingLoop rs amb filtered alloc).Nodup) := by
  intro rs amb filtered alloc
  constructor
  · intro x hx
    exact sampleRuns_subset rs amb filtered alloc 0 x hx
  · intro hf hks
    exact sampleRuns_nodup rs amb filtered hf alloc hks 0

/-- Witness for C9 at a concrete population: the two-row stratum sampled
with allocation 2 yields a duplicate-free sample contained in the
population. -/
theorem C9_sample_subset_nodup_witness :
    (∀ x ∈ samplingLoop (some 1) (fun _ _ => 0) [wRowA, wRowB] [("b_low", 2)],
      x ∈ [wRowA, wRowB]) ∧
    (samplingLoop (some 1) (fun _ _ => 0) [wRowA, wRowB] [("b_low", 2)]).Nodup := by
  constructor
  · exact (C9_sample_subset_nodup (some 1) (fun _ _ => 0) [wRowA, wRowB]
      [("b_low", 2)]).1
  · exact (C9_sample_subset_nodup (some 1) (fun _ _ => 0) [wRowA, wRowB]
      [("b_low", 2)]).2 (by decide) (by decide)

/-- C6: with a seed, two sampler runs on the same eligible population and
allocation coincide, whatever the ambient generator states of the two
runs were; without a seed, the result depends on the ambient generator
state, so distinct runs can yield distinct samples. -/
theorem C6_seed_reproducibility :
    (∀ (seed : ℕ) (amb amb' : ℕ → ℕ → ℕ) (filtered : List Row) (alloc : Series),
      samplingLoop (some seed) amb filtered alloc =
        samplingLoop (some seed) amb' filtered alloc) ∧
    (∃ (amb amb' : ℕ → ℕ → ℕ) (filtered : List Row) (alloc : Series),
      samplingLoop none amb filtered alloc ≠
        samplingLoop none amb' filtered alloc) := by
  constructor
  · intro seed amb amb' filtered alloc
    exact sampleRuns_seeded_amb_irrelevant seed amb amb' filtered alloc 0 0
  · refine ⟨fun _ _ => 0, fun _ _ => 1, [wRowA, wRowB], [("b_low", 1)], ?_⟩
    decide

/-- C10: `sampling.py` passes the hard-coded `random_state=1`, so its
sampling loop is a pure function of the eligible population and the
allocation — the ambient generator state of the run cannot influence it —
while `scripts/sampling.py` passes no `random_state`, so its loop reads
the ambient generator state and two runs can differ. -/
theorem C10_fixed_seed_vs_unseeded :
    (∀ (amb amb' : ℕ → ℕ → ℕ) (filtered : List Row) (alloc : Series),
      samplingLoop (some 1) amb filtered alloc =
        samplingLoop (some 1) amb' filtered alloc) ∧
    (∃ (amb amb' : ℕ → ℕ → ℕ) (filtered : List Row) (alloc : Series),
      samplingLoop none amb filtered alloc ≠
        samplingLoop none amb' filtered alloc) := by
  constructor
  · intro amb amb' filtered alloc
    exact sampleRuns_seeded_amb_irrelevant 1 amb amb' filtered alloc 0 0
  · refine ⟨fun _ _ => 2, fun _ _ => 3, [wRowA, wRowB], [("b_low", 1)], ?_⟩
    decide

/-! ## Series lemmas -/

lemma sumS_nil : sumS [] = 0 := rfl

lemma sumS_cons (p : String × ℤ) (s : Series) : sumS (p :: s) = p.2 + sumS s := by
  simp [sumS]

lemma keysS_nil : keysS [] = [] := rfl

lemma keysS_cons (p : String × ℤ) (s : Series) : keysS (p :: s) = p.1 :: keysS s := rfl

/-- A map that keeps the first component fixed keeps the index labels. -/
lemma keysS_map_keep (g : String × ℤ → String × ℤ) (hg : ∀ p, (g p).1 = p.1)
    (s : Series) : keysS (s.map g) = keysS s := by
  rw [keysS, keysS, List.map_map]
  exact List.map_congr_left (fun p _ => hg p)

/-- Reading back after updating the value at one label. -/
lemma getS_map_update (f : ℤ → ℤ) (c : String) :
    ∀ (s : Series) (h : String),
      getS (s.map (fun p => if p.1 = c then (p.1, f p.2) else p)) h =
        if h = c ∧ h ∈ keysS s then f (getS s h) else getS s h := by
  intro s
  induction s with
  | nil => intro h; simp [keysS]
  | cons a l ih =>
    intro h
    by_cases hah : a.1 = h
    · by_cases hac : a.1 = c
      · have hhc : h = c := hah ▸ hac
        simp [getS, hac, hah, hhc, keysS_cons]
      · have hhc : ¬ h = c := fun he => hac (hah ▸ he.symm ▸ rfl)
        simp [getS, hac, hah, hhc]
    · by_cases hac : a.1 = c
      · simp only [List.map_cons, if_pos hac, getS, if_neg hah]
        rw [ih, keysS_cons]
        by_cases h1 : h = c ∧ h ∈ keysS l
        · rw [if_pos h1, if_pos]
          exact ⟨h1.1, List.mem_cons.mpr (Or.inr h1.2)⟩
        · rw [if_neg h1, if_neg]
          intro h2
          rcases h2 with ⟨h3, h4⟩
          rcases List.mem_cons.mp h4 with h5 | h5
          · exact hah (h5 ▸ rfl)
          · exact h1 ⟨h3, h5⟩
      · simp only [List.map_cons, if_neg hac]
        simp only [getS, if_neg hah]
        rw [ih, keysS_cons]
        by_cases h1 : h = c ∧ h ∈ keysS l
        · rw [if_pos h1, if_pos ⟨h1.1, List.mem_cons.mpr (Or.inr h1.2)⟩]
        · rw [if_neg h1, if_neg]
          intro h2
          rcases h2 with ⟨h3, h4⟩
          rcases List.mem_cons.mp h4 with h5 | h5
          · exact hah (h5 ▸ rfl)
          · exact h1 ⟨h3, h5⟩

/-- Sum after updating the value at one label, given distinct labels. -/
lemma sumS_map_update (f : ℤ → ℤ) (c : String) :
    ∀ (s : Series), (keysS s).Nodup →
      sumS (s.map (fun p => if p.1 = c then (p.1, f p.2) else p)) =
        if c ∈ keysS s then sumS s - getS s c + f (getS s c) else sumS s := by
  intro s
  induction s with
  | nil => intro _; simp [sumS, keysS]
  | cons a l ih =>
    intro hnd
    rw [keysS_cons, List.nodup_cons] at hnd
    by_cases hac : a.1 = c
    · have hcl : c ∉ keysS l := hac ▸ hnd.1
      simp only [List.map_cons, if_pos hac, sumS_cons, ih hnd.2, if_neg hcl]
      rw [keysS_cons, if_pos (List.mem_cons.mpr (Or.inl hac.symm))]
      rw [getS, if_pos hac]
      omega
    · simp only [List.map_cons, if_neg hac, sumS_cons, ih hnd.2]
      rw [getS, if_neg hac, keysS_cons]
      have hmem : c ∈ a.1 :: keysS l ↔ c ∈ keysS l := by
        constructor
        · intro h
          rcases List.mem_cons.mp h with h1 | h1
          · exact absurd (h1 ▸ rfl) hac
          · exact h1
        · exact fun h => List.mem_cons.mpr (Or.inr h)
      by_cases h1 : c ∈ keysS l
      · rw [if_pos h1, if_pos (hmem.mpr h1)]
        omega
      · rw [if_neg h1, if_neg (fun h2 => h1 (hmem.mp h2))]

lemma keysS_incS (s : Series) (c : String) : keysS (incS s c) = keysS s :=
  keysS_map_keep _ (fun p => by by_cases h : p.1 = c <;> simp [h]) s

lemma keysS_decS (s : Series) (c : String) : keysS (decS s c) = keysS s :=
  keysS_map_keep _ (fun p => by by_cases h : p.1 = c <;> simp [h]) s

lemma getS_incS (s : Series) (c h : String) :
    getS (incS s c) h = if h = c ∧ h ∈ keysS s then getS s h + 1 else getS s h :=
  getS_map_update (fun v => v + 1) c s h

lemma getS_decS (s : Series) (c h : String) :
    getS (decS s c) h = if h = c ∧ h ∈ keysS s then getS s h - 1 else getS s h :=
  getS_map_update (fun v => v - 1) c s h

lemma sumS_incS (s : Series) (c : String) (hnd : (keysS s).Nodup) :
    sumS (incS s c) = if c ∈ keysS s then sumS s + 1 else sumS s := by
  rw [incS]
  rw [sumS_map_update (fun v => v + 1) c s hnd]
  split <;> omega

lemma sumS_decS (s : Series) (c : String) (hnd : (keysS s).Nodup) :
    sumS (decS s c) = if c ∈ keysS s then sumS s - 1 else sumS s := by
  rw [decS]
  rw [sumS_map_update (fun v => v - 1) c s hnd]
  split <;> omega

lemma keysS_floorStep (s : Series) : keysS (floorStep s) = keysS s :=
  keysS_map_keep _ (fun p => by by_cases h : p.2 < 2 <;> simp [h]) s

lemma getS_floorStep (s : Series) (h : String) :
    getS (floorStep s) h = if h ∈ keysS s ∧ getS s h < 2 then 2 else getS s h := by
  induction s with
  | nil => simp [floorStep, keysS]
  | cons a l ih =>
    by_cases hah : a.1 = h
    · by_cases hv : a.2 < 2
      · simp [floorStep, getS, hah, hv, keysS_cons]
      · simp [floorStep, getS, hah, hv, keysS_cons]
    · have hstep : getS (floorStep (a :: l)) h = getS (floorStep l) h := by
        by_cases hv : a.2 < 2 <;> simp [floorStep, getS, hah, hv]
      rw [hstep, ih, keysS_cons, getS, if_neg hah]
      by_cases h1 : h ∈ keysS l ∧ getS l h < 2
      · rw [if_pos h1, if_pos ⟨List.mem_cons.mpr (Or.inr h1.1), h1.2⟩]
      · rw [if_neg h1, if_neg]
        intro h2
        rcases h2 with ⟨h3, h4⟩
        rcases List.mem_cons.mp h3 with h5 | h5
        · exact hah (h5 ▸ rfl)
        · exact h1 ⟨h5, h4⟩

lemma getS_floorStep_ge (s : Series) (h : String) :
    getS s h ≤ getS (floorStep s) h := by
  rw [getS_floorStep]
  split <;> omega

lemma getS_floorStep_ge_two (s : Series) (h : String) (hmem : h ∈ keysS s) :
    2 ≤ getS (floorStep s) h := by
  rw [getS_floorStep]
  by_cases h1 : getS s h < 2
  · rw [if_pos ⟨hmem, h1⟩]
  · rw [if_neg (fun h2 => h1 h2.2)]
    omega

lemma sumS_floorStep_ge (s : Series) : sumS s ≤ sumS (floorStep s) := by
  induction s with
  | nil => simp [floorStep]
  | cons a l ih =>
    by_cases hv : a.2 < 2 <;> simp only [floorStep, List.map_cons, if_pos, if_neg, hv,
      ite_true, ite_false, sumS_cons] <;> rw [show sumS (List.map _ l) = sumS (floorStep l) from rfl] <;> omega

/-! ## Rounding lemmas -/

/-- Round-half-to-even never rounds down by more than one half. -/
lemma roundHE_ge (q : ℚ) : q - 1 / 2 ≤ (roundHE q : ℚ) := by
  rw [roundHE]
  split_ifs with h1 h2 h3 <;> push_cast <;>
    linarith [Int.floor_le q, Int.lt_floor_add_one q]

/-- Round-half-to-even of an integer is that integer. -/
lemma roundHE_intCast_real (z : ℤ) : roundHE ((z : ℝ)) = z := by
  rw [roundHE, Int.floor_intCast]
  norm_num

lemma getS_of_not_mem : ∀ (s : Series) (h : String), h ∉ keysS s → getS s h = 0 := by
  intro s
  induction s with
  | nil => intro h _; rfl
  | cons a l ih =>
    intro h hmem
    rw [keysS_cons] at hmem
    rw [getS, if_neg (fun he => hmem (List.mem_cons.mpr (Or.inl he.symm)))]
    exact ih h (fun he => hmem (List.mem_cons.mpr (Or.inr he)))

/-! ## Reconciliation-loop lemmas -/

lemma keysS_applyInc : ∀ (chosen : List String) (s : Series),
    keysS (applyInc s chosen) = keysS s := by
  intro chosen
  induction chosen with
  | nil => intro s; rfl
  | cons c rest ih =>
    intro s
    rw [applyInc, List.foldl_cons]
    have h1 : List.foldl (fun acc h => incS acc h) (incS s c) rest =
        applyInc (incS s c) rest := rfl
    rw [h1, ih, keysS_incS]

lemma keysS_applyDec : ∀ (chosen : List String) (s : Series),
    keysS (applyDec s chosen) = keysS s := by
  intro chosen
  induction chosen with
  | nil => intro s; rfl
  | cons c rest ih =>
    intro s
    rw [applyDec, List.foldl_cons]
    have h1 : List.foldl (fun acc h => if 2 < getS acc h then decS acc h else acc)
        (if 2 < getS s c then decS s c else s) rest =
        applyDec (if 2 < getS s c then decS s c else s) rest := rfl
    rw [h1, ih]
    by_cases h2 : 2 < getS s c
    · rw [if_pos h2, keysS_decS]
    · rw [if_neg h2]

lemma sumS_applyInc : ∀ (chosen : List String) (s : Series), (keysS s).Nodup →
    (∀ c ∈ chosen, c ∈ keysS s) →
    sumS (applyInc s chosen) = sumS s + chosen.length := by
  intro chosen
  induction chosen with
  | nil => intro s _ _; simp [applyInc]
  | cons c rest ih =>
    intro s hnd hsub
    rw [applyInc, List.foldl_cons]
    have h1 : List.foldl (fun acc h => incS acc h) (incS s c) rest =
        applyInc (incS s c) rest := rfl
    rw [h1, ih (incS s c) (by rw [keysS_incS]; exact hnd)
      (fun d hd => by
        rw [keysS_incS]
        exact hsub d (List.mem_cons.mpr (Or.inr hd)))]
    rw [sumS_incS s c hnd, if_pos (hsub c (List.mem_cons.mpr (Or.inl rfl)))]
    simp only [List.length_cons]
    omega

lemma getS_applyInc_ge : ∀ (chosen : List String) (s : Series) (h : String),
    getS s h ≤ getS (applyInc s chosen) h := by
  intro chosen
  induction chosen with
  | nil => intro s h; exact le_refl _
  | cons c rest ih =>
    intro s h
    rw [applyInc, List.foldl_cons]
    have h1 : List.foldl (fun acc h => incS acc h) (incS s c) rest =
        applyInc (incS s c) rest := rfl
    rw [h1]
    refine le_trans ?_ (ih (incS s c) h)
    rw [getS_incS]
    split <;> omega

lemma getS_applyDec : ∀ (chosen : List String) (s : Series), (keysS s).Nodup →
    chosen.Nodup → ∀ h, getS (applyDec s chosen) h =
      if h ∈ chosen ∧ 2 < getS s h then getS s h - 1 else getS s h := by
  intro chosen
  induction chosen with
  | nil => intro s _ _ h; simp [applyDec]
  | cons c rest ih =>
    intro s hnd hcnd h
    rw [List.nodup_cons] at hcnd
    rw [applyDec, List.foldl_cons]
    have hstep : List.foldl (fun acc h => if 2 < getS acc h then decS acc h else acc)
        (if 2 < getS s c then decS s c else s) rest =
        applyDec (if 2 < getS s c then decS s c else s) rest := rfl
    rw [hstep]
    have hknd : (keysS (if 2 < getS s c then decS s c else s)).Nodup := by
      by_cases h2 : 2 < getS s c
      · rw [if_pos h2, keysS_decS]; exact hnd
      · rw [if_neg h2]; exact hnd
    rw [ih _ hknd hcnd.2 h]
    by_cases hhc : h = c
    · subst hhc
      have hnr : h ∉ rest := hcnd.1
      rw [if_neg (fun hx => hnr hx.1)]
      by_cases hgt : 2 < getS s h
      · have hmem : h ∈ keysS s := by
          by_contra hx
          rw [getS_of_not_mem s h hx] at hgt
          omega
        rw [if_pos hgt, getS_decS, if_pos ⟨rfl, hmem⟩,
          if_pos ⟨List.mem_cons.mpr (Or.inl rfl), hgt⟩]
      · rw [if_neg hgt, if_neg (fun hx => hgt hx.2)]
    · have hgs : getS (if 2 < getS s c then decS s c else s) h = getS s h := by
        by_cases h2 : 2 < getS s c
        · rw [if_pos h2, getS_decS, if_neg (fun hx => hhc hx.1)]
        · rw [if_neg h2]
      rw [hgs]
      by_cases h3 : h ∈ rest ∧ 2 < getS s h
      · rw [if_pos h3, if_pos ⟨List.mem_cons.mpr (Or.inr h3.1), h3.2⟩]
      · rw [if_neg h3, if_neg]
        intro hx
        rcases List.mem_cons.mp hx.1 with h4 | h4
        · exact hhc h4
        · exact h3 ⟨h4, hx.2⟩

lemma sumS_applyDec_ge : ∀ (chosen : List String) (s : Series), (keysS s).Nodup →
    sumS s - (chosen.length : ℤ) ≤ sumS (applyDec s chosen) := by
  intro chosen
  induction chosen with
  | nil => intro s _; simp [applyDec]
  | cons c rest ih =>
    intro s hnd
    rw [applyDec, List.foldl_cons]
    have hstep : List.foldl (fun acc h => if 2 < getS acc h then decS acc h else acc)
        (if 2 < getS s c then decS s c else s) rest =
        applyDec (if 2 < getS s c then decS s c else s) rest := rfl
    rw [hstep]
    have hknd : (keysS (if 2 < getS s c then decS s c else s)).Nodup := by
      by_cases h2 : 2 < getS s c
      · rw [if_pos h2, keysS_decS]; exact hnd
      · rw [if_neg h2]; exact hnd
    have hge : sumS s - 1 ≤ sumS (if 2 < getS s c then decS s c else s) := by
      by_cases h2 : 2 < getS s c
      · rw [if_pos h2, sumS_decS s c hnd]
        split <;> omega
      · rw [if_neg h2]; omega
    have := ih _ hknd
    simp only [List.length_cons]
    push_cast
    push_cast at this
    omega

/-! ## nlargest lemmas -/

lemma selectLargest_length (k : ℕ) (s : Series) :
    (selectLargest k s).length = min k s.length := by
  rw [selectLargest, List.length_map, List.length_take,
    (List.perm_insertionSort _ s).length_eq]

lemma selectLargest_subset (k : ℕ) (s : Series) :
    ∀ c ∈ selectLargest k s, c ∈ keysS s := by
  intro c hc
  rw [selectLargest, List.mem_map] at hc
  obtain ⟨p, hp, rfl⟩ := hc
  have hp2 : p ∈ s :=
    (List.perm_insertionSort _ s).subset ((List.take_sublist _ _).subset hp)
  exact List.mem_map.mpr ⟨p, hp2, rfl⟩

lemma selectLargest_nodup (k : ℕ) (s : Series) (hnd : (keysS s).Nodup) :
    (selectLargest k s).Nodup := by
  rw [selectLargest]
  rw [keysS] at hnd
  have h1 : ((s.insertionSort (fun a b => b.2 ≤ a.2)).map (fun p => p.1)).Nodup :=
    (List.Perm.nodup_iff
      (List.Perm.map (fun p => p.1)
        (List.perm_insertionSort (fun a b => b.2 ≤ a.2) s))).mpr hnd
  exact List.Sublist.nodup
    (List.Sublist.map (fun (p : String × ℤ) => p.1)
      (List.take_sublist k (s.insertionSort (fun a b => b.2 ≤ a.2)))) h1

/-! ## Reconciliation lemmas -/

lemma keysS_reconcile (sh : Series) (B : ℤ) : keysS (reconcile sh B) = keysS sh := by
  simp only [reconcile]
  by_cases h1 : 0 < B - sumS sh
  · rw [if_pos h1, keysS_applyInc]
  · rw [if_neg h1]
    by_cases h2 : B - sumS sh < 0
    · rw [if_pos h2, keysS_applyDec]
    · rw [if_neg h2]

lemma reconcile_sum_ge (sh : Series) (B : ℤ) (hnd : (keysS sh).Nodup)
    (hub : B - sumS sh ≤ (sh.length : ℤ)) : B ≤ sumS (reconcile sh B) := by
  simp only [reconcile]
  by_cases h1 : 0 < B - sumS sh
  · rw [if_pos h1, sumS_applyInc _ _ hnd (selectLargest_subset _ _),
      selectLargest_length]
    have h2 : (B - sumS sh).toNat ≤ sh.length := by omega
    omega
  · rw [if_neg h1]
    by_cases h2 : B - sumS sh < 0
    · rw [if_pos h2]
      have h3 := sumS_applyDec_ge (selectLargest (-(B - sumS sh)).toNat sh) sh hnd
      have h4 : (selectLargest (-(B - sumS sh)).toNat sh).length ≤
          (-(B - sumS sh)).toNat := by
        rw [selectLargest_length]
        exact Nat.min_le_left _ _
      omega
    · rw [if_neg h2]
      omega

lemma reconcile_sum_eq_of_nonneg (sh : Series) (B : ℤ) (hnd : (keysS sh).Nodup)
    (hub : B - sumS sh ≤ (sh.length : ℤ)) (hd : 0 ≤ B - sumS sh) :
    sumS (reconcile sh B) = B := by
  simp only [reconcile]
  by_cases h1 : 0 < B - sumS sh
  · rw [if_pos h1, sumS_applyInc _ _ hnd (selectLargest_subset _ _),
      selectLargest_length]
    have h2 : (B - sumS sh).toNat ≤ sh.length := by omega
    omega
  · rw [if_neg h1, if_neg (by omega)]
    omega

lemma reconcile_dec_only (sh : Series) (B : ℤ) (hnd : (keysS sh).Nodup) :
    ∀ h, getS (reconcile sh B) h < getS sh h → 2 < getS sh h := by
  intro h hlt
  simp only [reconcile] at hlt
  by_cases h1 : 0 < B - sumS sh
  · rw [if_pos h1] at hlt
    exact absurd hlt (not_lt.mpr (getS_applyInc_ge _ _ _))
  · rw [if_neg h1] at hlt
    by_cases h2 : B - sumS sh < 0
    · rw [if_pos h2] at hlt
      rw [getS_applyDec _ _ hnd (selectLargest_nodup _ _ hnd) h] at hlt
      by_cases h3 : h ∈ selectLargest (-(B - sumS sh)).toNat sh ∧ 2 < getS sh h
      · exact h3.2
      · rw [if_neg h3] at hlt
        omega
    · rw [if_neg h2] at hlt
      omega

/-! ## Rescale lemmas -/

lemma cast_sumS : ∀ (l : Series), ((sumS l : ℤ) : ℚ) = (l.map (fun p => (p.2 : ℚ))).sum := by
  intro l
  induction l with
  | nil => simp [sumS]
  | cons a t ih =>
    rw [sumS_cons, List.map_cons, List.sum_cons, ← ih]
    push_cast
    ring

lemma sum_roundHE_lb (R Bq : ℚ) :
    ∀ (l : Series),
      (l.map (fun p => (p.2 : ℚ) / R * Bq)).sum - (l.length : ℚ) / 2 ≤
        ((sumS (l.map (fun p => (p.1, roundHE ((p.2 : ℚ) / R * Bq)))) : ℤ) : ℚ) := by
  intro l
  induction l with
  | nil => simp [sumS]
  | cons a t ih =>
    simp only [List.map_cons, List.sum_cons, sumS_cons, List.length_cons]
    push_cast
    push_cast at ih
    have h1 := roundHE_ge ((a.2 : ℚ) / R * Bq)
    linarith

lemma rescale_sum_lb (raw : Series) (B : ℤ) (hR : sumS raw ≠ 0) :
    (B : ℚ) - (raw.length : ℚ) / 2 ≤ ((sumS (rescale raw B) : ℤ) : ℚ) := by
  have h1 := sum_roundHE_lb ((sumS raw : ℤ) : ℚ) (B : ℚ) raw
  have h2 : (raw.map (fun p => (p.2 : ℚ) / ((sumS raw : ℤ) : ℚ) * (B : ℚ))).sum = (B : ℚ) := by
    have h3 : (fun (p : String × ℤ) => (p.2 : ℚ) / ((sumS raw : ℤ) : ℚ) * (B : ℚ)) =
        fun (p : String × ℤ) => (p.2 : ℚ) * ((B : ℚ) / ((sumS raw : ℤ) : ℚ)) := by
      funext p
      ring
    rw [h3, List.sum_map_mul_right, ← cast_sumS]
    have hcast : ((sumS raw : ℤ) : ℚ) ≠ 0 := Int.cast_ne_zero.mpr hR
    field_simp
  rw [rescale]
  rw [h2] at h1
  exact h1

lemma rescale_length (raw : Series) (B : ℤ) : (rescale raw B).length = raw.length := by
  rw [rescale, List.length_map]

lemma rescale_diff_le_len (raw : Series) (B : ℤ) (hR : sumS raw ≠ 0) :
    B - sumS (rescale raw B) ≤ ((rescale raw B).length : ℤ) := by
  have h1 := rescale_sum_lb raw B hR
  rw [rescale_length]
  have h3 : (raw.length : ℚ) / 2 ≤ (raw.length : ℚ) := by
    have h0 : (0 : ℚ) ≤ (raw.length : ℚ) := Nat.cast_nonneg _
    linarith
  have h4 : (B : ℚ) - ((sumS (rescale raw B) : ℤ) : ℚ) ≤ (raw.length : ℚ) := by
    linarith
  exact_mod_cast h4

lemma keysS_rescale (raw : Series) (B : ℤ) : keysS (rescale raw B) = keysS raw := by
  rw [rescale]
  exact keysS_map_keep
    (fun p => (p.1, roundHE ((p.2 : ℚ) / (sumS raw : ℚ) * (B : ℚ))))
    (fun p => rfl) raw

/-! ## Strata-index lemmas -/

lemma mem_uniqueAux : ∀ (l seen : List String) (x : String),
    x ∈ uniqueAux seen l ↔ x ∈ l ∧ x ∉ seen := by
  intro l
  induction l with
  | nil => intro seen x; simp [uniqueAux]
  | cons y ys ih =>
    intro seen x
    by_cases hy : y ∈ seen
    · rw [uniqueAux, if_pos hy, ih]
      constructor
      · rintro ⟨h1, h2⟩
        exact ⟨List.mem_cons.mpr (Or.inr h1), h2⟩
      · rintro ⟨h1, h2⟩
        rcases List.mem_cons.mp h1 with h3 | h3
        · exact absurd (h3 ▸ hy) h2
        · exact ⟨h3, h2⟩
    · rw [uniqueAux, if_neg hy]
      constructor
      · intro h1
        rcases List.mem_cons.mp h1 with h3 | h3
        · exact ⟨List.mem_cons.mpr (Or.inl h3), h3 ▸ hy⟩
        · rw [ih] at h3
          exact ⟨List.mem_cons.mpr (Or.inr h3.1),
            fun hx => h3.2 (List.mem_cons.mpr (Or.inr hx))⟩
      · rintro ⟨h1, h2⟩
        by_cases hxy : x = y
        · exact List.mem_cons.mpr (Or.inl hxy)
        · have h3 : x ∈ ys := by
            rcases List.mem_cons.mp h1 with h4 | h4
            · exact absurd h4 hxy
            · exact h4
          refine List.mem_cons.mpr (Or.inr ?_)
          rw [ih]
          exact ⟨h3, fun hx =>
            (List.mem_cons.mp hx).elim (fun h5 => hxy h5) (fun h5 => h2 h5)⟩

lemma nodup_uniqueAux : ∀ (l seen : List String), (uniqueAux seen l).Nodup := by
  intro l
  induction l with
  | nil => intro seen; simp [uniqueAux]
  | cons y ys ih =>
    intro seen
    by_cases hy : y ∈ seen
    · rw [uniqueAux, if_pos hy]
      exact ih seen
    · rw [uniqueAux, if_neg hy, List.nodup_cons]
      refine ⟨fun hx => ?_, ih _⟩
      rw [mem_uniqueAux] at hx
      exact hx.2 (List.mem_cons.mpr (Or.inl rfl))

lemma mem_strataList (rows : List Row) (h : String) :
    h ∈ strataList rows ↔ ∃ r ∈ rows, r.stratum = h := by
  rw [strataList, List.Perm.mem_iff (List.perm_insertionSort _ _), uniqueInOrder,
    mem_uniqueAux]
  simp [List.mem_map, eq_comm]

lemma strataList_nodup (rows : List Row) : (strataList rows).Nodup := by
  rw [strataList]
  exact (List.Perm.nodup_iff (List.perm_insertionSort _ _)).mpr (nodup_uniqueAux _ _)

lemma keysS_rawWeights (rows : List Row) : keysS (rawWeights rows) = strataList rows := by
  rw [rawWeights, keysS, List.map_map]
  have h1 : ((fun (p : String × ℤ) => p.1) ∘
      (fun h => (h, roundHE ((stratumCount rows h : ℝ) *
        Real.sqrt ((stratumBA rows h : ℚ) : ℝ))))) = fun (h : String) => h := rfl
  rw [h1]
  exact List.map_id _

/-! ## Allocation-stage lemmas -/

lemma allocate_eq (rows : List Row) (B : ℤ) (hR : sumS (rawWeights rows) ≠ 0) :
    allocate rows B = Except.ok (allocFinal rows B) := by
  rw [allocate, rescaleE, if_neg (fun hx => hR hx.1)]
  rfl

lemma allocate_ok_char (rows : List Row) (B : ℤ) (a : Series)
    (hok : allocate rows B = Except.ok a) : a = allocFinal rows B := by
  rw [allocate, rescaleE] at hok
  by_cases hc : sumS (rawWeights rows) = 0 ∧ rawWeights rows ≠ []
  · rw [if_pos hc] at hok
    exact absurd hok (by simp [Except.map])
  · rw [if_neg hc] at hok
    simp only [Except.map] at hok
    exact (Except.ok.injEq _ _).mp hok.symm

lemma keysS_allocAfterReconcile (rows : List Row) (B : ℤ) :
    keysS (allocAfterReconcile rows B) = strataList rows := by
  rw [allocAfterReconcile, keysS_reconcile, allocAfterRescale, keysS_rescale,
    keysS_rawWeights]

/-! ## Allocator claims (general statements) -/

/-- C1, amended: over the eligible population, when the raw-weight sum is
nonzero (so the rescale completes), the reconciled allocation sums to *at
least* the total budget — with equality whenever the rounded rescale does
not overshoot the budget — the floored allocation still sums to at least
the budget, and reconciliation only ever decrements a stratum whose
rescaled allocation exceeds 2.  (The unamended claim — exact equality
after reconciliation in all cases — fails when the rescale overshoots and
the largest strata are already at 2 or below; see the counterexample.) -/
theorem C1_allocation_sum_amended (tiles : List Tile) (minLand maxRevisit : ℚ) (B : ℤ)
    (hpop : B ≤ ((filteredData minLand maxRevisit tiles).length : ℤ))
    (hba : ∃ h ∈ strataList (filteredData minLand maxRevisit tiles),
      stratumBA (filteredData minLand maxRevisit tiles) h ≠ 0)
    (hraw : sumS (rawWeights (filteredData minLand maxRevisit tiles)) ≠ 0) :
    B ≤ sumS (allocAfterReconcile (filteredData minLand maxRevisit tiles) B) ∧
    (0 ≤ B - sumS (allocAfterRescale (filteredData minLand maxRevisit tiles) B) →
      sumS (allocAfterReconcile (filteredData minLand maxRevisit tiles) B) = B) ∧
    B ≤ sumS (allocFinal (filteredData minLand maxRevisit tiles) B) ∧
    (∀ h, getS (allocAfterReconcile (filteredData minLand maxRevisit tiles) B) h <
        getS (allocAfterRescale (filteredData minLand maxRevisit tiles) B) h →
      2 < getS (allocAfterRescale (filteredData minLand maxRevisit tiles) B) h) := by
  set rows := filteredData minLand maxRevisit tiles with hrows
  have hknd : (keysS (allocAfterRescale rows B)).Nodup := by
    rw [allocAfterRescale, keysS_rescale, keysS_rawWeights]
    exact strataList_nodup rows
  have hub : B - sumS (allocAfterRescale rows B) ≤
      ((allocAfterRescale rows B).length : ℤ) := by
    rw [allocAfterRescale]
    exact rescale_diff_le_len _ B hraw
  exact ⟨reconcile_sum_ge _ B hknd hub,
    fun hd => reconcile_sum_eq_of_nonneg _ B hknd hub hd,
    le_trans (reconcile_sum_ge _ B hknd hub) (sumS_floorStep_ge _),
    reconcile_dec_only _ B hknd⟩

/-- C3: whenever the allocation stage completes, its result is exactly
the minimum-floor pass applied after reconciliation; every stratum present
in the eligible population ends with at least 2, no stratum's allocation
is ever lowered by the floor pass (the overshoot is kept, nothing
compensates), and the total can only grow. -/
theorem C3_minimum_floor (rows : List Row) (B : ℤ) (a : Series)
    (hok : allocate rows B = Except.ok a) :
    a = floorStep (allocAfterReconcile rows B) ∧
    (∀ h, (∃ r ∈ rows, r.stratum = h) → 2 ≤ getS a h) ∧
    (∀ h, getS (allocAfterReconcile rows B) h ≤ getS a h) ∧
    sumS (allocAfterReconcile rows B) ≤ sumS a := by
  have ha := allocate_ok_char rows B a hok
  subst ha
  refine ⟨rfl, ?_, ?_, ?_⟩
  · intro h hpres
    apply getS_floorStep_ge_two
    rw [keysS_allocAfterReconcile, mem_strataList]
    exact hpres
  · intro h
    exact getS_floorStep_ge _ _
  · exact sumS_floorStep_ge _

/-! ## Concrete allocator computations -/

/-- Round-half-to-even sends `3/2` up to the even integer 2. -/
lemma roundHE_three_halves : roundHE ((3 : ℚ) / 2) = 2 := by
  have hfl : ⌊(3 : ℚ) / 2⌋ = 1 := by norm_num
  rw [roundHE, hfl]
  norm_num [Int.even_iff]

/-- The raw weight of a stratum whose mean BA percentage is exactly 1. -/
lemma roundHE_mul_sqrt_one (c : ℕ) :
    roundHE ((c : ℝ) * Real.sqrt (((1 : ℚ) : ℝ))) = (c : ℤ) := by
  rw [show ((1 : ℚ) : ℝ) = (1 : ℝ) by norm_num, Real.sqrt_one, mul_one,
    show ((c : ℕ) : ℝ) = (((c : ℤ) : ℤ) : ℝ) by push_cast; ring]
  exact roundHE_intCast_real _

/-- The raw weight of a stratum whose mean BA percentage is exactly 0. -/
lemma roundHE_mul_sqrt_zero (c : ℕ) :
    roundHE ((c : ℝ) * Real.sqrt (((0 : ℚ) : ℝ))) = 0 := by
  rw [show ((0 : ℚ) : ℝ) = (0 : ℝ) by norm_num, Real.sqrt_zero, mul_zero,
    show (0 : ℝ) = ((0 : ℤ) : ℝ) by norm_num]
  exact roundHE_intCast_real 0

/-- The population that falsifies the exact-sum part of the allocation
claim: four biomes with two tiles each, every tile fully on land, cloud
free, with BA percentage 1. -/
def ceTiles : List Tile :=
  [⟨"t1", "b1", 1, 100, some 1⟩, ⟨"t2", "b1", 1, 100, some 1⟩,
   ⟨"t3", "b2", 1, 100, some 1⟩, ⟨"t4", "b2", 1, 100, some 1⟩,
   ⟨"t5", "b3", 1, 100, some 1⟩, ⟨"t6", "b3", 1, 100, some 1⟩,
   ⟨"t7", "b4", 1, 100, some 1⟩, ⟨"t8", "b4", 1, 100, some 1⟩]

/-- The stratified, filtered form of `ceTiles`: every tile is labeled
`low` (its BA percentage sits exactly at its biome's threshold) and every
tile passes the quality filter. -/
def ceRows : List Row :=
  [⟨⟨"t1", "b1", 1, 100, some 1⟩, "b1_low"⟩, ⟨⟨"t2", "b1", 1, 100, some 1⟩, "b1_low"⟩,
   ⟨⟨"t3", "b2", 1, 100, some 1⟩, "b2_low"⟩, ⟨⟨"t4", "b2", 1, 100, some 1⟩, "b2_low"⟩,
   ⟨⟨"t5", "b3", 1, 100, some 1⟩, "b3_low"⟩, ⟨⟨"t6", "b3", 1, 100, some 1⟩, "b3_low"⟩,
   ⟨⟨"t7", "b4", 1, 100, some 1⟩, "b4_low"⟩, ⟨⟨"t8", "b4", 1, 100, some 1⟩, "b4_low"⟩]

/-- The raw-weight series of `ceRows`: each stratum has `round(2·√1) = 2`. -/
def ceRaw : Series := [("b1_low", 2), ("b2_low", 2), ("b3_low", 2), ("b4_low", 2)]

lemma ceRows_eq : filteredData 50 10 ceTiles = ceRows := by
  norm_num [filteredData, applyFilter, stratifyRows, fireActivity, fireThreshold,
    quantile08, ceTiles, ceRows, List.insertionSort, List.orderedInsert,
    List.filter]
  decide

lemma sum_map_const (c : ℚ) :
    ∀ (l : List Row), (l.map (fun _ => c)).sum = (l.length : ℚ) * c := by
  intro l
  induction l with
  | nil => simp
  | cons a t ih =>
    simp only [List.map_cons, List.sum_cons, List.length_cons]
    rw [ih]
    push_cast
    ring

/-- The mean of a constant nonempty list is that constant. -/
lemma meanQ_const (c : ℚ) (l : List Row) (hne : l ≠ []) :
    meanQ (l.map (fun _ => c)) = c := by
  rw [meanQ]
  have hlen : (l.map (fun (_ : Row) => c)).length = l.length := List.length_map _ _
  rw [hlen, sum_map_const c l]
  have hn : (l.length : ℚ) ≠ 0 := by
    have : l.length ≠ 0 := fun hz => hne (List.length_eq_zero.mp hz)
    exact_mod_cast this
  field_simp

/-- The `transform('mean')` column is constant on each stratum, so the
group mean of that column is the group's mean BA percentage. -/
lemma stratumBA_eq (rows : List Row) (h : String)
    (hne : rows.filter (fun r => decide (r.stratum = h)) ≠ []) :
    stratumBA rows h =
      meanQ ((rows.filter (fun r => decide (r.stratum = h))).map (fun x => x.baPerc)) := by
  rw [stratumBA]
  have hmap : (rows.filter (fun r => decide (r.stratum = h))).map
      (fun r => baMeanOfRow rows r) =
      (rows.filter (fun r => decide (r.stratum = h))).map
        (fun _ => meanQ ((rows.filter (fun x => decide (x.stratum = h))).map
          (fun x => x.baPerc))) := by
    apply List.map_congr_left
    intro r hr
    have hrs : r.stratum = h := by
      have := (List.mem_filter.mp hr).2
      simpa using this
    rw [baMeanOfRow, hrs]
  rw [hmap]
  exact meanQ_const _ _ hne

lemma ceRows_stratumBA : stratumBA ceRows "b1_low" = 1 ∧ stratumBA ceRows "b2_low" = 1 ∧
    stratumBA ceRows "b3_low" = 1 ∧ stratumBA ceRows "b4_low" = 1 := by
  refine ⟨?_, ?_, ?_, ?_⟩ <;> rw [stratumBA_eq _ _ (by decide)]
  · rw [show ceRows.filter (fun r => decide (r.stratum = "b1_low")) =
        [⟨⟨"t1", "b1", 1, 100, some 1⟩, "b1_low"⟩,
         ⟨⟨"t2", "b1", 1, 100, some 1⟩, "b1_low"⟩] by decide]
    norm_num [meanQ]
  · rw [show ceRows.filter (fun r => decide (r.stratum = "b2_low")) =
        [⟨⟨"t3", "b2", 1, 100, some 1⟩, "b2_low"⟩,
         ⟨⟨"t4", "b2", 1, 100, some 1⟩, "b2_low"⟩] by decide]
    norm_num [meanQ]
  · rw [show ceRows.filter (fun r => decide (r.stratum = "b3_low")) =
        [⟨⟨"t5", "b3", 1, 100, some 1⟩, "b3_low"⟩,
         ⟨⟨"t6", "b3", 1, 100, some 1⟩, "b3_low"⟩] by decide]
    norm_num [meanQ]
  · rw [show ceRows.filter (fun r => decide (r.stratum = "b4_low")) =
        [⟨⟨"t7", "b4", 1, 100, some 1⟩, "b4_low"⟩,
         ⟨⟨"t8", "b4", 1, 100, some 1⟩, "b4_low"⟩] by decide]
    norm_num [meanQ]

lemma rawWeights_ce : rawWeights (filteredData 50 10 ceTiles) = ceRaw := by
  rw [ceRows_eq, rawWeights]
  have hstrata : strataList ceRows = ["b1_low", "b2_low", "b3_low", "b4_low"] := by decide
  have hc1 : stratumCount ceRows "b1_low" = 2 := by decide
  have hc2 : stratumCount ceRows "b2_low" = 2 := by decide
  have hc3 : stratumCount ceRows "b3_low" = 2 := by decide
  have hc4 : stratumCount ceRows "b4_low" = 2 := by decide
  obtain ⟨hb1, hb2, hb3, hb4⟩ := ceRows_stratumBA
  rw [hstrata]
  simp only [List.map_cons, List.map_nil, hc1, hc2, hc3, hc4, hb1, hb2, hb3, hb4]
  rw [roundHE_mul_sqrt_one 2]
  rfl

lemma ce_raw_nonzero : sumS (rawWeights (filteredData 50 10 ceTiles)) ≠ 0 := by
  rw [rawWeights_ce]
  decide

lemma ce_pop_ge : (6 : ℤ) ≤ ((filteredData 50 10 ceTiles).length : ℤ) := by
  rw [ceRows_eq]
  norm_num [ceRows]

lemma ce_ba_nonzero : ∃ h ∈ strataList (filteredData 50 10 ceTiles),
    stratumBA (filteredData 50 10 ceTiles) h ≠ 0 := by
  refine ⟨"b1_low", ?_, ?_⟩
  · rw [ceRows_eq]
    decide
  · rw [ceRows_eq, ceRows_stratumBA.1]
    norm_num

lemma rescale_ce : rescale ceRaw 6 = ceRaw := by
  have hsum : sumS ceRaw = 8 := by decide
  rw [rescale, hsum]
  norm_num [ceRaw, roundHE_three_halves]

/-- Counterexample to C1 as stated: for `ceTiles` with total budget 6 the
eligible population has 8 ≥ 6 tiles and nonzero mean BA everywhere, the
rescale produces allocation 2 for each of the 4 strata (banker's rounding
of `6·2/8 = 1.5`), so the sum is 8 and the deficit is −2, but no stratum
exceeds 2, so the reconciliation loop decrements nothing and the total
after reconciliation is 8, not the budget 6. -/
theorem C1_allocation_sum_counterexample :
    (6 : ℤ) ≤ ((filteredData 50 10 ceTiles).length : ℤ) ∧
    (∃ h ∈ strataList (filteredData 50 10 ceTiles),
      stratumBA (filteredData 50 10 ceTiles) h ≠ 0) ∧
    sumS (rawWeights (filteredData 50 10 ceTiles)) ≠ 0 ∧
    sumS (allocAfterReconcile (filteredData 50 10 ceTiles) 6) ≠ 6 := by
  refine ⟨ce_pop_ge, ce_ba_nonzero, ce_raw_nonzero, ?_⟩
  rw [allocAfterReconcile, allocAfterRescale, rawWeights_ce, rescale_ce]
  decide

/-- Witness for the amended C1 at the concrete counterexample population
with budget 6. -/
theorem C1_allocation_sum_amended_witness :
    (6 : ℤ) ≤ sumS (allocAfterReconcile (filteredData 50 10 ceTiles) 6) ∧
    (6 : ℤ) ≤ sumS (allocFinal (filteredData 50 10 ceTiles) 6) := by
  have h := C1_allocation_sum_amended ceTiles 50 10 6 ce_pop_ge ce_ba_nonzero
    ce_raw_nonzero
  exact ⟨h.1, h.2.2.1⟩

/-- Witness for C3 at the concrete population: the allocation completes
with value 2 for stratum `b1_low`, at least the reconciled value. -/
theorem C3_minimum_floor_witness :
    2 ≤ getS ceRaw "b1_low" ∧
    getS (allocAfterReconcile (filteredData 50 10 ceTiles) 6) "b1_low" ≤
      getS ceRaw "b1_low" := by
  have hfin : allocFinal (filteredData 50 10 ceTiles) 6 = ceRaw := by
    rw [allocFinal, allocAfterReconcile, allocAfterRescale, rawWeights_ce, rescale_ce]
    decide
  have hok : allocate (filteredData 50 10 ceTiles) 6 = Except.ok ceRaw := by
    rw [allocate_eq _ _ ce_raw_nonzero, hfin]
  have h := C3_minimum_floor (filteredData 50 10 ceTiles) 6 ceRaw hok
  refine ⟨h.2.1 "b1_low" ?_, h.2.2.1 "b1_low"⟩
  rw [ceRows_eq]
  exact ⟨⟨⟨"t1", "b1", 1, 100, some 1⟩, "b1_low"⟩, by decide, rfl⟩

/-- The degenerate population for C5: one biome, both tiles eligible, all
BA percentages 0, so every raw weight is 0 and their sum is 0. -/
def c5Tiles : List Tile :=
  [⟨"t1", "b", 0, 100, some 1⟩, ⟨"t2", "b", 0, 100, some 1⟩]

/-- The stratified, filtered form of `c5Tiles`. -/
def c5Rows : List Row :=
  [⟨⟨"t1", "b", 0, 100, some 1⟩, "b_low"⟩, ⟨⟨"t2", "b", 0, 100, some 1⟩, "b_low"⟩]

lemma c5Rows_eq : filteredData 50 10 c5Tiles = c5Rows := by
  norm_num [filteredData, applyFilter, stratifyRows, fireActivity, fireThreshold,
    quantile08, c5Tiles, c5Rows, List.insertionSort, List.orderedInsert,
    List.filter]
  decide

lemma rawWeights_c5 : rawWeights (filteredData 50 10 c5Tiles) = [("b_low", 0)] := by
  rw [c5Rows_eq, rawWeights]
  have hstrata : strataList c5Rows = ["b_low"] := by decide
  have hc : stratumCount c5Rows "b_low" = 2 := by decide
  have hb : stratumBA c5Rows "b_low" = 0 := by
    rw [stratumBA_eq _ _ (by decide)]
    rw [show c5Rows.filter (fun r => decide (r.stratum = "b_low")) =
        [⟨⟨"t1", "b", 0, 100, some 1⟩, "b_low"⟩,
         ⟨⟨"t2", "b", 0, 100, some 1⟩, "b_low"⟩] by decide]
    norm_num [meanQ]
  rw [hstrata]
  simp only [List.map_cons, List.map_nil, hc, hb]
  rw [roundHE_mul_sqrt_zero 2]

/-- C5 shows a bug: on a nonempty eligible population whose raw weights
sum to 0 (here: every BA percentage is 0), the rescale divides 0 by 0 and
the `astype(int)` conversion of the resulting non-finite values raises a
`ValueError`; the code neither yields the all-zero allocation nor signals
a distinct no-fire-activity-signal condition. -/
theorem C5_zero_weights_crash :
    filteredData 50 10 c5Tiles ≠ [] ∧
    allocate (filteredData 50 10 c5Tiles) 100 =
      Except.error "ValueError: Cannot convert non-finite values (NA or inf) to integer" := by
  constructor
  · rw [c5Rows_eq]
    decide
  · rw [allocate, rawWeights_c5, rescaleE, if_pos ⟨by decide, by decide⟩]
    rfl

end S2BAVG
